import Mathlib

/-!
A shallow embedding of the C-Bitset library (src/bitset.c, src/bitset.h) and
proofs of the specification's claims about it.

The C struct BitSet { uint8_t *bits; size_t bit_len; } is modelled as a list
of byte values (natural numbers, well-formed when < 256) together with a bit
length.  Machine bytes are Nat; every operation of the source keeps byte
values below 256 without truncation (or/and/xor of values < 256 stay < 256),
except bitwise NOT, which is not needed by any claim here.  A loop writing
the first n cells of the buffer is modelled by rebuilding the first n list
entries and appending the untouched remainder.
-/

/-- Model of struct BitSet: a byte buffer plus a length in bits. -/
structure BitSet where
  bits : List Nat
  bit_len : Nat
deriving DecidableEq, Repr

/-- Well-formedness of an initialized BitSet: the buffer holds exactly
ceil(bit_len/8) bytes and every byte fits in uint8_t. -/
def WFBitSet (bs : BitSet) : Prop :=
  bs.bits.length = (bs.bit_len + 7) / 8 ∧ ∀ b ∈ bs.bits, b < 256

instance : DecidablePred WFBitSet := fun bs => by
  unfold WFBitSet; infer_instance

/-- BitSet_get_byte_len: (bs->bit_len + 7) / 8. -/
def BitSet_get_byte_len (bs : BitSet) : Nat :=
  (bs.bit_len + 7) / 8

/-- BitSet_init on the successful-allocation path: bit_len is stored and the
buffer is calloc'ed (zero-filled) with BitSet_get_byte_len bytes. -/
def BitSet_init (bit_len : Nat) : BitSet :=
  { bits := List.replicate ((bit_len + 7) / 8) 0, bit_len := bit_len }

/-- BitSet_set: bs->bits[index / 8] |= 1 << (index % 8). -/
def BitSet_set (bs : BitSet) (index : Nat) : BitSet :=
  { bs with bits :=
      bs.bits.set (index / 8) (bs.bits.getD (index / 8) 0 ||| (1 <<< (index % 8))) }

/-- BitSet_clear: bs->bits[index / 8] &= ~(1 << (index % 8)).  The int-typed
complement is truncated to uint8_t on assignment; on a byte value < 256 this
equals masking with 255 XOR (1 << (index % 8)). -/
def BitSet_clear (bs : BitSet) (index : Nat) : BitSet :=
  { bs with bits :=
      bs.bits.set (index / 8) (bs.bits.getD (index / 8) 0 &&& (255 ^^^ (1 <<< (index % 8)))) }

/-- BitSet_get: (bs->bits[index / 8] >> (index % 8)) & 1. -/
def BitSet_get (bs : BitSet) (index : Nat) : Nat :=
  (bs.bits.getD (index / 8) 0 >>> (index % 8)) &&& 1

/-- BitSet_flip: bs->bits[index / 8] ^= 1 << (index % 8). -/
def BitSet_flip (bs : BitSet) (index : Nat) : BitSet :=
  { bs with bits :=
      bs.bits.set (index / 8) (bs.bits.getD (index / 8) 0 ^^^ (1 <<< (index % 8))) }

/-- BitSet_set_all: writes 0xFF to bits[i] for every i < byte_len. -/
def BitSet_set_all (bs : BitSet) : BitSet :=
  { bs with bits :=
      List.replicate (BitSet_get_byte_len bs) 255 ++ bs.bits.drop (BitSet_get_byte_len bs) }

/-- BitSet_clear_all: writes 0 to bits[i] for every i < byte_len. -/
def BitSet_clear_all (bs : BitSet) : BitSet :=
  { bs with bits :=
      List.replicate (BitSet_get_byte_len bs) 0 ++ bs.bits.drop (BitSet_get_byte_len bs) }

/-- Shared shape of BitSet_or / BitSet_and / BitSet_xor: byte_len is the byte
length of whichever operand has the smaller bit_len (dest when strictly
smaller, src otherwise, matching the C conditional), and dest.bits[i] is
combined with src.bits[i] for every i < byte_len, the rest left unchanged. -/
def BitSet_bin_op (op : Nat → Nat → Nat) (dest src : BitSet) : BitSet :=
  let byte_len := BitSet_get_byte_len (if dest.bit_len < src.bit_len then dest else src)
  { dest with bits :=
      List.zipWith op (dest.bits.take byte_len) (src.bits.take byte_len)
        ++ dest.bits.drop byte_len }

/-- BitSet_or: dest->bits[i] |= src->bits[i] for i < byte_len of the shorter. -/
def BitSet_or (dest src : BitSet) : BitSet :=
  BitSet_bin_op (· ||| ·) dest src

/-- BitSet_and: dest->bits[i] &= src->bits[i] for i < byte_len of the shorter. -/
def BitSet_and (dest src : BitSet) : BitSet :=
  BitSet_bin_op (· &&& ·) dest src

/-- BitSet_xor: dest->bits[i] ^= src->bits[i] for i < byte_len of the shorter. -/
def BitSet_xor (dest src : BitSet) : BitSet :=
  BitSet_bin_op (· ^^^ ·) dest src

/-- BitSet_equals: 0 if bit lengths differ, else compare byte_len(bs1) bytes. -/
def BitSet_equals (bs1 bs2 : BitSet) : Bool :=
  if bs1.bit_len ≠ bs2.bit_len then false
  else (List.range (BitSet_get_byte_len bs1)).all
    (fun i => bs1.bits.getD i 0 == bs2.bits.getD i 0)

/-- linear_index's loop: iterating i from num_dims-1 down to 0 it runs
index += indices[i] * multiplier; multiplier *= dims[i].  The recursion
computes the pair (index, multiplier) after processing the suffix. -/
def linAux : List Nat → List Nat → Nat × Nat
  | d :: ds, ix :: ixs =>
    let p := linAux ds ixs
    (p.1 + ix * p.2, p.2 * d)
  | _, _ => (0, 1)

/-- linear_index(num_dims, dims, indices): the accumulated index. -/
def linear_index (dims indices : List Nat) : Nat :=
  (linAux dims indices).1

/-- inverse_linear_index's loop: for i = 0..num_dims-1 with
dim_index = num_dims-1-i it runs indices[dim_index] = index % dims[dim_index];
index /= dims[dim_index] — i.e. the last dimension is peeled off first.  The
recursion returns the written coordinate list together with the remaining
index after all divisions. -/
def invAux : List Nat → Nat → List Nat × Nat
  | [], index => ([], index)
  | d :: ds, index =>
    let p := invAux ds index
    (p.2 % d :: p.1, p.2 / d)

/-- inverse_linear_index(num_dims, dims, index, indices): the coordinates
written into the output array. -/
def inverse_linear_index (dims : List Nat) (index : Nat) : List Nat :=
  (invAux dims index).1

/-- Error kinds named by the specification. -/
inductive BitSetError where
  | allocationError
  | indexOutOfRange
deriving DecidableEq, Repr

/-- Strict-mode BitSet_get: BITSET_ASSERT(index < bs->bit_len) fails with
IndexOutOfRange, otherwise the bit is read. -/
def BitSet_get_checked (bs : BitSet) (index : Nat) : Except BitSetError Nat :=
  if index < bs.bit_len then .ok (BitSet_get bs index) else .error .indexOutOfRange

/-- Strict-mode BitSet_set. -/
def BitSet_set_checked (bs : BitSet) (index : Nat) : Except BitSetError BitSet :=
  if index < bs.bit_len then .ok (BitSet_set bs index) else .error .indexOutOfRange

/-- Strict-mode BitSet_clear. -/
def BitSet_clear_checked (bs : BitSet) (index : Nat) : Except BitSetError BitSet :=
  if index < bs.bit_len then .ok (BitSet_clear bs index) else .error .indexOutOfRange

/-- Strict-mode BitSet_flip. -/
def BitSet_flip_checked (bs : BitSet) (index : Nat) : Except BitSetError BitSet :=
  if index < bs.bit_len then .ok (BitSet_flip bs index) else .error .indexOutOfRange

/-- What a call to an allocating constructor observably does.  The bits field
of a returned value is none when the buffer pointer is NULL. -/
inductive InitOutcome where
  /-- the call returned normally to the caller with this BitSet state -/
  | returned (bits : Option (List Nat)) (bit_len : Nat)
  /-- BITSET_ASSERT fired: the failure message was printed and
  BITSET_DEBUG_BREAK raised a signal, aborting the process -/
  | aborted (msg : String)
  /-- the call surfaced a recoverable error result to the caller (the
  specification's AllocationError channel; present in the vocabulary so the
  claim can be stated, never produced by the code) -/
  | errorResult (e : BitSetError)
  /-- the call dereferenced a NULL pointer: undefined behavior -/
  | undefinedBehavior
deriving DecidableEq, Repr

/-- BitSet_init with an explicit debug/fast mode and an allocation oracle.
In debug mode a failed calloc trips BITSET_ASSERT (print + raise); in fast
mode the assertion is compiled out and the function returns with a NULL
buffer, reporting nothing. -/
def BitSet_init_mode (debugMode : Bool) (bit_len : Nat) (allocOk : Bool) : InitOutcome :=
  if allocOk then
    .returned (some (List.replicate ((bit_len + 7) / 8) 0)) bit_len
  else if debugMode then
    .aborted "BitSet_init: Memory allocation failed"
  else
    .returned none bit_len

/-- BitSet_copy_construct with an explicit mode and an allocation oracle.
On a failed malloc, debug mode trips BITSET_ASSERT (print + raise); fast mode
continues, stores bit_len, and the copy loop writes through the NULL pointer
whenever byte_len > 0 — undefined behavior; with byte_len = 0 the loop body
never runs and the call returns a NULL-buffer BitSet silently. -/
def BitSet_copy_construct_mode (debugMode : Bool) (src : BitSet) (allocOk : Bool) : InitOutcome :=
  if allocOk then
    .returned (some (src.bits.take (BitSet_get_byte_len src))) src.bit_len
  else if debugMode then
    .aborted "BitSet_copy_construct: Memory allocation failed"
  else if BitSet_get_byte_len src = 0 then
    .returned none src.bit_len
  else
    .undefinedBehavior

/-- One iteration of BitSet_print's loop at bit index i: printf("%d", ...)
emits the digit of BitSet_get (which is always 0 or 1), then a newline is
printed when (i + 1) % newline == 0. -/
def print_body (bs : BitSet) (newline : Nat) (i : Nat) (acc : List Char) : List Char :=
  (if BitSet_get bs i = 1 then '1' else '0') ::
    (if (i + 1) % newline = 0 then '\n' :: acc else acc)

/-- BitSet_print, modelled as the character stream written to stdout.  The
loop prints one decimal digit per bit and evaluates (i + 1) % newline after
each one; when bit_len > 0 and newline = 0 that first evaluation is a modulo
by zero — undefined behavior, modelled as none.  A final newline always
follows the loop. -/
def BitSet_print (bs : BitSet) (newline : Nat) : Option (List Char) :=
  if bs.bit_len ≠ 0 ∧ newline = 0 then none
  else some ((List.range bs.bit_len).foldr (print_body bs newline) ['\n'])

/-!  Helper lemmas  -/

/-- A bit index inside the bit length addresses a byte inside the buffer. -/
theorem byte_index_lt {index n : Nat} (h : index < n) : index / 8 < (n + 7) / 8 := by
  omega

/-- Shifting right then masking with 1 extracts bit k. -/
theorem shiftRight_and_one (b k : Nat) : (b >>> k) &&& 1 = (b.testBit k).toNat := by
  rw [Nat.and_one_is_mod, Nat.shiftRight_eq_div_pow, Nat.testBit_to_div_mod]
  rcases Nat.mod_two_eq_zero_or_one (b / 2 ^ k) with h | h <;> simp [h]

/-- BitSet_get reads the (index % 8)-th least significant bit of byte
index / 8. -/
theorem get_as_testBit (bs : BitSet) (index : Nat) :
    BitSet_get bs index = ((bs.bits.getD (index / 8) 0).testBit (index % 8)).toNat :=
  shiftRight_and_one _ _

/-- Reading back the byte just stored at an in-range position. -/
theorem getD_set_self (l : List Nat) (p v : Nat) (h : p < l.length) :
    (l.set p v).getD p 0 = v := by
  rw [List.getD_eq_getElem _ _ (by simpa using h)]
  simp

/-- An initialized BitSet is well-formed. -/
theorem init_WF (n : Nat) : WFBitSet (BitSet_init n) := by
  constructor
  · simp [BitSet_init]
  · intro b hb
    simp [BitSet_init] at hb
    omega

/-- C3: for every n >= 0, after init(n) the BitSet's byte_length equals
ceil(n/8) = (n + 7) / 8 (n = 0 is legal and yields byte_length 0), and get
returns 0 for every index < n, since the buffer is zero-filled. -/
theorem init_byte_len_and_reads_zero (n : Nat) :
    BitSet_get_byte_len (BitSet_init n) = (n + 7) / 8 ∧
    (BitSet_init n).bit_len = n ∧
    (BitSet_init n).bits.length = (n + 7) / 8 ∧
    BitSet_get_byte_len (BitSet_init 0) = 0 ∧
    ∀ index, index < n → BitSet_get (BitSet_init n) index = 0 := by
  refine ⟨rfl, rfl, by simp [BitSet_init], rfl, ?_⟩
  intro index _
  unfold BitSet_get BitSet_init
  have hz : (List.replicate ((n + 7) / 8) 0).getD (index / 8) 0 = 0 := by
    rcases Nat.lt_or_ge (index / 8) ((n + 7) / 8) with h | h
    · rw [List.getD_eq_getElem _ _ (by simpa using h)]
      simp
    · rw [List.getD_eq_default _ _ (by simpa using h)]
  simp [hz]

/-- C3 witness: init(9) has 2 bytes of storage, and bit 5 reads 0. -/
theorem init_byte_len_and_reads_zero_witness :
    BitSet_get_byte_len (BitSet_init 9) = 2 ∧ BitSet_get (BitSet_init 9) 5 = 0 :=
  ⟨(init_byte_len_and_reads_zero 9).1, (init_byte_len_and_reads_zero 9).2.2.2.2 5 (by decide)⟩

/-- C9: in strict (assertion-checked) mode, set, clear, flip, and get fail
with IndexOutOfRange exactly when index >= bit_length; in particular
index == bit_length itself is always out of range. -/
theorem checked_ops_index_out_of_range_iff (bs : BitSet) (index : Nat) :
    (BitSet_get_checked bs index = .error .indexOutOfRange ↔ bs.bit_len ≤ index) ∧
    (BitSet_set_checked bs index = .error .indexOutOfRange ↔ bs.bit_len ≤ index) ∧
    (BitSet_clear_checked bs index = .error .indexOutOfRange ↔ bs.bit_len ≤ index) ∧
    (BitSet_flip_checked bs index = .error .indexOutOfRange ↔ bs.bit_len ≤ index) ∧
    BitSet_get_checked bs bs.bit_len = .error .indexOutOfRange ∧
    BitSet_set_checked bs bs.bit_len = .error .indexOutOfRange ∧
    BitSet_clear_checked bs bs.bit_len = .error .indexOutOfRange ∧
    BitSet_flip_checked bs bs.bit_len = .error .indexOutOfRange := by
  unfold BitSet_get_checked BitSet_set_checked BitSet_clear_checked BitSet_flip_checked
  refine ⟨?_, ?_, ?_, ?_, ?_, ?_, ?_, ?_⟩ <;> first
    | (constructor
       · intro h
         by_contra hlt
         rw [if_pos (by omega)] at h
         exact absurd h (by simp)
       · intro h
         rw [if_neg (by omega)])
    | rw [if_neg (by omega)]

/-- C4 counterexample: in fast (no-assertion) mode, a failed allocation in
init(8) is not surfaced as an AllocationError result; the call returns
silently with a NULL buffer. -/
theorem alloc_failure_silent_counterexample :
    BitSet_init_mode false 8 false = InitOutcome.returned none 8 ∧
    BitSet_init_mode false 8 false ≠ InitOutcome.errorResult BitSetError.allocationError := by
  constructor
  · rfl
  · intro h
    simp [BitSet_init_mode] at h

/-- C4 amended: when storage allocation fails during init or copy_construct,
the failure is never surfaced as a recoverable AllocationError result: in
debug mode the assertion prints a message and raises a signal (process
abort); in fast mode the check is compiled out and init returns silently
with a NULL buffer, while copy_construct either returns silently (zero byte
length) or dereferences NULL — undefined behavior. -/
theorem alloc_failure_abort_or_silent (dbg : Bool) (n : Nat) (src : BitSet) :
    BitSet_init_mode true n false = .aborted "BitSet_init: Memory allocation failed" ∧
    BitSet_init_mode false n false = .returned none n ∧
    BitSet_copy_construct_mode true src false =
      .aborted "BitSet_copy_construct: Memory allocation failed" ∧
    (BitSet_get_byte_len src = 0 →
      BitSet_copy_construct_mode false src false = .returned none src.bit_len) ∧
    (BitSet_get_byte_len src ≠ 0 →
      BitSet_copy_construct_mode false src false = .undefinedBehavior) ∧
    (∀ (ok : Bool) (e : BitSetError), BitSet_init_mode dbg n ok ≠ .errorResult e) ∧
    (∀ (ok : Bool) (e : BitSetError), BitSet_copy_construct_mode dbg src ok ≠ .errorResult e) := by
  unfold BitSet_init_mode BitSet_copy_construct_mode
  refine ⟨rfl, rfl, rfl, ?_, ?_, ?_, ?_⟩
  · intro h
    simp [h]
  · intro h
    simp [h]
  · intro ok e h
    cases ok <;> cases dbg <;> simp at h
  · intro ok e h
    cases ok <;> cases dbg <;> ((try simp at h); (try split at h <;> simp at h))

/-- C4 amended witness: concrete instances of the amended behavior at
n = 8 and a one-byte source. -/
theorem alloc_failure_abort_or_silent_witness :
    BitSet_copy_construct_mode false (BitSet.mk [7] 8) false = .undefinedBehavior ∧
    BitSet_copy_construct_mode false (BitSet.mk [] 0) false = .returned none 0 :=
  ⟨(alloc_failure_abort_or_silent false 8 (BitSet.mk [7] 8)).2.2.2.2.1 (by decide),
   (alloc_failure_abort_or_silent false 8 (BitSet.mk [] 0)).2.2.2.1 (by decide)⟩

/-- C5: for every initialized BitSet and index < bit_length, set then get
reads 1, clear then get reads 0, flip twice restores the value read by get,
and get addresses byte index/8 at bit index % 8 with bit 0 the least
significant bit of its byte. -/
theorem single_bit_ops_round_trip (bs : BitSet) (index : Nat)
    (hwf : WFBitSet bs) (h : index < bs.bit_len) :
    BitSet_get (BitSet_set bs index) index = 1 ∧
    BitSet_get (BitSet_clear bs index) index = 0 ∧
    BitSet_get (BitSet_flip (BitSet_flip bs index) index) index = BitSet_get bs index ∧
    BitSet_get bs index = bs.bits.getD (index / 8) 0 / 2 ^ (index % 8) % 2 := by
  have hp : index / 8 < bs.bits.length := by
    rw [hwf.1]
    exact byte_index_lt h
  have hk : index % 8 < 8 := Nat.mod_lt _ (by norm_num)
  refine ⟨?_, ?_, ?_, ?_⟩
  · have e : (BitSet_set bs index).bits.getD (index / 8) 0 =
        bs.bits.getD (index / 8) 0 ||| (1 <<< (index % 8)) :=
      getD_set_self _ _ _ hp
    show ((BitSet_set bs index).bits.getD (index / 8) 0 >>> (index % 8)) &&& 1 = 1
    rw [e, shiftRight_and_one, Nat.one_shiftLeft, Nat.testBit_or]
    simp [Nat.testBit_two_pow_self]
  · have e : (BitSet_clear bs index).bits.getD (index / 8) 0 =
        bs.bits.getD (index / 8) 0 &&& (255 ^^^ (1 <<< (index % 8))) :=
      getD_set_self _ _ _ hp
    show ((BitSet_clear bs index).bits.getD (index / 8) 0 >>> (index % 8)) &&& 1 = 0
    rw [e, shiftRight_and_one, Nat.one_shiftLeft, Nat.testBit_and, Nat.testBit_xor]
    have h255 : (255 : Nat).testBit (index % 8) = true := by
      rw [show (255 : Nat) = 2 ^ 8 - 1 by norm_num, Nat.testBit_two_pow_sub_one]
      simpa using hk
    simp [h255, Nat.testBit_two_pow_self]
  · have e1 : (BitSet_flip bs index).bits.getD (index / 8) 0 =
        bs.bits.getD (index / 8) 0 ^^^ (1 <<< (index % 8)) :=
      getD_set_self _ _ _ hp
    have hp2 : index / 8 < (BitSet_flip bs index).bits.length := by
      show index / 8 < (bs.bits.set _ _).length
      simpa using hp
    have e2 : (BitSet_flip (BitSet_flip bs index) index).bits.getD (index / 8) 0 =
        (BitSet_flip bs index).bits.getD (index / 8) 0 ^^^ (1 <<< (index % 8)) :=
      getD_set_self _ _ _ hp2
    show ((BitSet_flip (BitSet_flip bs index) index).bits.getD (index / 8) 0 >>> (index % 8)) &&& 1
        = (bs.bits.getD (index / 8) 0 >>> (index % 8)) &&& 1
    rw [e2, e1, Nat.xor_assoc, Nat.xor_self, Nat.xor_zero]
  · show (bs.bits.getD (index / 8) 0 >>> (index % 8)) &&& 1 = _
    rw [Nat.and_one_is_mod, Nat.shiftRight_eq_div_pow]

/-- C5 witness: in a 16-bit set, bit 9 round-trips through set, clear and a
double flip. -/
theorem single_bit_ops_round_trip_witness :
    BitSet_get (BitSet_set (BitSet_init 16) 9) 9 = 1 ∧
    BitSet_get (BitSet_clear (BitSet_init 16) 9) 9 = 0 ∧
    BitSet_get (BitSet_flip (BitSet_flip (BitSet_init 16) 9) 9) 9 = BitSet_get (BitSet_init 16) 9 :=
  ⟨(single_bit_ops_round_trip (BitSet_init 16) 9 (by decide) (by decide)).1,
   (single_bit_ops_round_trip (BitSet_init 16) 9 (by decide) (by decide)).2.1,
   (single_bit_ops_round_trip (BitSet_init 16) 9 (by decide) (by decide)).2.2.1⟩

/-- Reading an in-range position of a replicated buffer. -/
theorem getD_replicate (n i v : Nat) (h : i < n) : (List.replicate n v).getD i 0 = v := by
  rw [List.getD_eq_getElem _ _ (by simpa using h)]
  simp

/-- C7: set_all sets every storage byte to 0xFF and clear_all sets every
storage byte to 0x00 (padding included, as the whole final byte is written),
so afterwards get reads 1 (respectively 0) at every index < bit_length. -/
theorem set_all_clear_all_spec (bs : BitSet) (hwf : WFBitSet bs) :
    (BitSet_set_all bs).bits = List.replicate (BitSet_get_byte_len bs) 255 ∧
    (∀ index, index < bs.bit_len → BitSet_get (BitSet_set_all bs) index = 1) ∧
    (BitSet_clear_all bs).bits = List.replicate (BitSet_get_byte_len bs) 0 ∧
    (∀ index, index < bs.bit_len → BitSet_get (BitSet_clear_all bs) index = 0) := by
  have hdrop : bs.bits.drop (BitSet_get_byte_len bs) = [] :=
    List.drop_eq_nil_of_le (le_of_eq hwf.1)
  have hset : (BitSet_set_all bs).bits = List.replicate (BitSet_get_byte_len bs) 255 := by
    unfold BitSet_set_all
    rw [hdrop, List.append_nil]
  have hclear : (BitSet_clear_all bs).bits = List.replicate (BitSet_get_byte_len bs) 0 := by
    unfold BitSet_clear_all
    rw [hdrop, List.append_nil]
  refine ⟨hset, ?_, hclear, ?_⟩
  · intro index hi
    show ((BitSet_set_all bs).bits.getD (index / 8) 0 >>> (index % 8)) &&& 1 = 1
    rw [hset, show BitSet_get_byte_len bs = (bs.bit_len + 7) / 8 from rfl,
      getD_replicate _ _ _ (byte_index_lt hi), shiftRight_and_one]
    have h255 : (255 : Nat).testBit (index % 8) = true := by
      rw [show (255 : Nat) = 2 ^ 8 - 1 by norm_num, Nat.testBit_two_pow_sub_one]
      simpa using Nat.mod_lt index (show 0 < 8 by norm_num)
    rw [h255]
    rfl
  · intro index hi
    show ((BitSet_clear_all bs).bits.getD (index / 8) 0 >>> (index % 8)) &&& 1 = 0
    rw [hclear, show BitSet_get_byte_len bs = (bs.bit_len + 7) / 8 from rfl,
      getD_replicate _ _ _ (byte_index_lt hi)]
    simp

/-- C7 witness: after set_all on a 10-bit set every storage byte is 255 and
bit 9 reads 1; after clear_all bit 9 reads 0. -/
theorem set_all_clear_all_spec_witness :
    (BitSet_set_all (BitSet_init 10)).bits = [255, 255] ∧
    BitSet_get (BitSet_set_all (BitSet_init 10)) 9 = 1 ∧
    BitSet_get (BitSet_clear_all (BitSet_init 10)) 9 = 0 := by
  have h := set_all_clear_all_spec (BitSet_init 10) (by decide)
  exact ⟨by rw [h.1]; rfl, h.2.1 9 (by decide), h.2.2.2 9 (by decide)⟩

/-- C6: equals returns false whenever the bit lengths differ, and for equal
bit lengths returns true exactly when the storage byte buffers coincide —
storage-exact equality, padding bits included. -/
theorem equals_storage_exact (a b : BitSet) (ha : WFBitSet a) (hb : WFBitSet b) :
    (a.bit_len ≠ b.bit_len → BitSet_equals a b = false) ∧
    (a.bit_len = b.bit_len → (BitSet_equals a b = true ↔ a.bits = b.bits)) := by
  constructor
  · intro h
    unfold BitSet_equals
    rw [if_pos h]
  · intro h
    unfold BitSet_equals
    rw [if_neg (by simp [h]), List.all_eq_true]
    constructor
    · intro hall
      apply List.ext_getElem
      · rw [ha.1, hb.1, h]
      · intro i h1 h2
        have hin : i ∈ List.range (BitSet_get_byte_len a) := by
          apply List.mem_range.mpr
          show i < (a.bit_len + 7) / 8
          rw [← ha.1]
          exact h1
        have hbeq := hall i hin
        rw [List.getD_eq_getElem _ _ h1, List.getD_eq_getElem _ _ h2] at hbeq
        simpa using hbeq
    · intro heq i _
      simp [heq]

/-- C6 witness: identical one-byte sets compare equal; sets of bit length 2
agreeing on their first two bits but differing in a padding bit compare
unequal; sets of different bit lengths compare unequal. -/
theorem equals_storage_exact_witness :
    BitSet_equals (BitSet.mk [3] 2) (BitSet.mk [3] 2) = true ∧
    BitSet_equals (BitSet.mk [3] 2) (BitSet.mk [7] 2) = false ∧
    BitSet_equals (BitSet.mk [1] 3) (BitSet.mk [9] 4) = false := by
  have h1 := (equals_storage_exact (BitSet.mk [3] 2) (BitSet.mk [3] 2) (by decide) (by decide)).2 rfl
  have h2 := (equals_storage_exact (BitSet.mk [3] 2) (BitSet.mk [7] 2) (by decide) (by decide)).2 rfl
  have h3 := (equals_storage_exact (BitSet.mk [1] 3) (BitSet.mk [9] 4) (by decide) (by decide)).1
    (by decide)
  refine ⟨h1.mpr rfl, ?_, h3⟩
  have hne : ¬ BitSet_equals (BitSet.mk [3] 2) (BitSet.mk [7] 2) = true := by
    rw [h2]
    decide
  simpa using hne

/-- Shared specification of the three byte-wise binary operations: the bit
length and buffer length of dest are preserved; the first
(min bit_len + 7) / 8 bytes are combined pointwise, the rest untouched. -/
theorem bin_op_spec (op : Nat → Nat → Nat) (dest src : BitSet)
    (hd : WFBitSet dest) (hs : WFBitSet src) :
    (BitSet_bin_op op dest src).bit_len = dest.bit_len ∧
    (BitSet_bin_op op dest src).bits.length = dest.bits.length ∧
    ∀ i, i < dest.bits.length →
      (BitSet_bin_op op dest src).bits.getD i 0 =
        if i < (min dest.bit_len src.bit_len + 7) / 8
        then op (dest.bits.getD i 0) (src.bits.getD i 0)
        else dest.bits.getD i 0 := by
  have hbytelen : BitSet_get_byte_len (if dest.bit_len < src.bit_len then dest else src) =
      (min dest.bit_len src.bit_len + 7) / 8 := by
    unfold BitSet_get_byte_len
    split <;> (congr 1; omega)
  set n := (min dest.bit_len src.bit_len + 7) / 8 with hn
  have hnd : n ≤ dest.bits.length := by
    rw [hd.1]
    omega
  have hns : n ≤ src.bits.length := by
    rw [hs.1]
    omega
  have hbits : (BitSet_bin_op op dest src).bits =
      List.zipWith op (dest.bits.take n) (src.bits.take n) ++ dest.bits.drop n := by
    unfold BitSet_bin_op
    rw [hbytelen]
  have hzlen : (List.zipWith op (dest.bits.take n) (src.bits.take n)).length = n := by
    simp [List.length_zipWith]
    omega
  have hlen : (BitSet_bin_op op dest src).bits.length = dest.bits.length := by
    rw [hbits]
    simp [List.length_zipWith]
    omega
  refine ⟨rfl, hlen, ?_⟩
  intro i hi
  rw [hbits]
  by_cases hcase : i < n
  · rw [if_pos hcase, List.getD_append _ _ 0 i (by omega)]
    rw [List.getD_eq_getElem _ _ (by omega), List.getElem_zipWith]
    rw [List.getD_eq_getElem _ _ hi, List.getD_eq_getElem _ _ (by omega : i < src.bits.length)]
    congr 1 <;> simp [List.getElem_take]
  · rw [if_neg hcase, List.getD_append_right _ _ 0 i (by omega)]
    rw [hzlen, List.getD_eq_getElem _ _ (by simp; omega), List.getD_eq_getElem _ _ hi]
    rw [List.getElem_drop]
    congr 1
    omega

/-- C1: or, and, and xor process exactly the byte length of whichever operand
has the smaller bit_length (ties and the byte-length conversion follow the
source's conditional on bit_len), combine that many bytes byte-wise into
dest, and leave every byte of dest beyond that count unchanged. -/
theorem bitwise_ops_truncate_to_shorter (dest src : BitSet)
    (hd : WFBitSet dest) (hs : WFBitSet src) :
    BitSet_get_byte_len (if dest.bit_len < src.bit_len then dest else src) =
      (min dest.bit_len src.bit_len + 7) / 8 ∧
    ((BitSet_or dest src).bit_len = dest.bit_len ∧
      (BitSet_or dest src).bits.length = dest.bits.length ∧
      ∀ i, i < dest.bits.length →
        (BitSet_or dest src).bits.getD i 0 =
          if i < (min dest.bit_len src.bit_len + 7) / 8
          then dest.bits.getD i 0 ||| src.bits.getD i 0
          else dest.bits.getD i 0) ∧
    ((BitSet_and dest src).bit_len = dest.bit_len ∧
      (BitSet_and dest src).bits.length = dest.bits.length ∧
      ∀ i, i < dest.bits.length →
        (BitSet_and dest src).bits.getD i 0 =
          if i < (min dest.bit_len src.bit_len + 7) / 8
          then dest.bits.getD i 0 &&& src.bits.getD i 0
          else dest.bits.getD i 0) ∧
    ((BitSet_xor dest src).bit_len = dest.bit_len ∧
      (BitSet_xor dest src).bits.length = dest.bits.length ∧
      ∀ i, i < dest.bits.length →
        (BitSet_xor dest src).bits.getD i 0 =
          if i < (min dest.bit_len src.bit_len + 7) / 8
          then dest.bits.getD i 0 ^^^ src.bits.getD i 0
          else dest.bits.getD i 0) := by
  refine ⟨?_, bin_op_spec _ dest src hd hs, bin_op_spec _ dest src hd hs,
    bin_op_spec _ dest src hd hs⟩
  unfold BitSet_get_byte_len
  split <;> (congr 1; omega)

/-- C1 witness: or on a 16-bit dest and an 8-bit src combines exactly one
byte and leaves dest's second byte untouched (the spec's own example). -/
theorem bitwise_ops_truncate_to_shorter_witness :
    (BitSet_or (BitSet.mk [240, 15] 16) (BitSet.mk [255] 8)).bits.getD 0 0 = 255 ∧
    (BitSet_or (BitSet.mk [240, 15] 16) (BitSet.mk [255] 8)).bits.getD 1 0 = 15 := by
  have h := bitwise_ops_truncate_to_shorter (BitSet.mk [240, 15] 16) (BitSet.mk [255] 8)
    (by decide) (by decide)
  have h0 := h.2.1.2.2 0 (by decide)
  have h1 := h.2.1.2.2 1 (by decide)
  rw [h0, h1]
  decide

/-- Mixed-radix digit recovery: running inverse_linear_index's divmod chain
on linear_index's accumulated value plus k times the full multiplier yields
the original coordinates, with k left as the remaining quotient. -/
theorem invAux_linAux (ds ixs : List Nat) (h : List.Forall₂ (· < ·) ixs ds) :
    ∀ k, invAux ds ((linAux ds ixs).1 + k * (linAux ds ixs).2) = (ixs, k) := by
  induction h with
  | nil =>
    intro k
    show invAux [] (0 + k * 1) = ([], k)
    simp [invAux]
  | cons hlt htail ih =>
    intro k
    rename_i ix d ixs ds
    have hd : 0 < d := Nat.lt_of_le_of_lt (Nat.zero_le ix) hlt
    show invAux (d :: ds)
        ((linAux ds ixs).1 + ix * (linAux ds ixs).2 + k * ((linAux ds ixs).2 * d)) = (ix :: ixs, k)
    have harith : (linAux ds ixs).1 + ix * (linAux ds ixs).2 + k * ((linAux ds ixs).2 * d) =
        (linAux ds ixs).1 + (ix + k * d) * (linAux ds ixs).2 := by ring
    rw [harith]
    show ((invAux ds _).2 % d :: (invAux ds _).1, (invAux ds _).2 / d) = (ix :: ixs, k)
    rw [ih (ix + k * d)]
    have hmod : (ix + k * d) % d = ix := by
      rw [Nat.add_mul_mod_self_right, Nat.mod_eq_of_lt hlt]
    have hdiv : (ix + k * d) / d = k := by
      rw [Nat.add_mul_div_right _ _ hd, Nat.div_eq_of_lt hlt, Nat.zero_add]
    rw [hmod, hdiv]

/-- C2: for dims a sequence of positive integers and indices of the same
length with indices[i] < dims[i] for each i, inverse_linear_index applied to
linear_index reproduces the coordinates exactly — the row-major mapping with
the last dimension varying fastest round-trips. -/
theorem inverse_linear_index_round_trip (dims indices : List Nat)
    (h : List.Forall₂ (· < ·) indices dims) :
    inverse_linear_index dims (linear_index dims indices) = indices := by
  have hk := invAux_linAux dims indices h 0
  rw [Nat.zero_mul, Nat.add_zero] at hk
  unfold inverse_linear_index linear_index
  rw [hk]

/-- C2 witness: the spec's own example, dims = [2,2], indices = [1,1], whose
linear index is 3, plus a non-uniform case. -/
theorem inverse_linear_index_round_trip_witness :
    (linear_index [2, 2] [1, 1] = 3 ∧ inverse_linear_index [2, 2] 3 = [1, 1]) ∧
    inverse_linear_index [3, 4, 5] (linear_index [3, 4, 5] [2, 0, 4]) = [2, 0, 4] :=
  ⟨⟨by decide, by
      have h := inverse_linear_index_round_trip [2, 2] [1, 1]
        (List.Forall₂.cons (by decide) (List.Forall₂.cons (by decide) List.Forall₂.nil))
      rw [show linear_index [2, 2] [1, 1] = 3 from by decide] at h
      exact h⟩,
   inverse_linear_index_round_trip [3, 4, 5] [2, 0, 4]
     (List.Forall₂.cons (by decide) (List.Forall₂.cons (by decide)
       (List.Forall₂.cons (by decide) List.Forall₂.nil)))⟩

/-- The divmod chain of inverse_linear_index only sees the index modulo the
product of the dimensions; the quotient by the product is what remains. -/
theorem invAux_mod_prod (ds : List Nat) (index : Nat) :
    invAux ds index = ((invAux ds (index % ds.prod)).1, index / ds.prod) := by
  induction ds generalizing index with
  | nil =>
    show ([], index) = (([] : List Nat), index / 1)
    rw [Nat.div_one]
  | cons d ds ih =>
    have hdvd : ds.prod ∣ (d :: ds).prod := ⟨d, by rw [List.prod_cons]; ring⟩
    have lhs_unfold : invAux (d :: ds) index =
        ((invAux ds index).2 % d :: (invAux ds index).1, (invAux ds index).2 / d) := rfl
    have rhs_unfold : invAux (d :: ds) (index % (d :: ds).prod) =
        ((invAux ds (index % (d :: ds).prod)).2 % d :: (invAux ds (index % (d :: ds).prod)).1,
          (invAux ds (index % (d :: ds).prod)).2 / d) := rfl
    rw [lhs_unfold, rhs_unfold, ih index, ih (index % (d :: ds).prod)]
    have hmm : index % (d :: ds).prod % ds.prod = index % ds.prod :=
      Nat.mod_mod_of_dvd index hdvd
    have hdm : index % (d :: ds).prod / ds.prod = index / ds.prod % d := by
      rw [List.prod_cons, Nat.mul_comm d ds.prod]
      exact Nat.mod_mul_right_div_self index ds.prod d
    rw [hdm, hmm, Nat.mod_mod_of_dvd _ (dvd_refl d), Nat.div_div_eq_div_mul, List.prod_cons,
      Nat.mul_comm d ds.prod]

/-- C8: for dims a sequence of positive integers and any linear index at or
beyond product(dims), inverse_linear_index does not fail but silently wraps:
it produces the same coordinates as for index mod product(dims). -/
theorem inverse_linear_index_wraps_mod (dims : List Nat) (index : Nat)
    (_hpos : ∀ d ∈ dims, 0 < d) (_hge : dims.prod ≤ index) :
    inverse_linear_index dims index = inverse_linear_index dims (index % dims.prod) := by
  unfold inverse_linear_index
  rw [invAux_mod_prod dims index]

/-- C8 witness: dims = [2,3], index = 7 ≥ 6 wraps to index 1, both mapping to
coordinates [0,1]. -/
theorem inverse_linear_index_wraps_mod_witness :
    inverse_linear_index [2, 3] 7 = inverse_linear_index [2, 3] (7 % List.prod [2, 3]) ∧
    inverse_linear_index [2, 3] 7 = [0, 1] :=
  ⟨inverse_linear_index_wraps_mod [2, 3] 7 (by decide) (by decide), by decide⟩

/-- The print loop body prepends its output to whatever follows. -/
theorem print_body_out_append (bs : BitSet) (g i : Nat) (y acc : List Char) :
    print_body bs g i (y ++ acc) = print_body bs g i y ++ acc := by
  unfold print_body
  rcases Decidable.em (BitSet_get bs i = 1) with h | h <;>
    rcases Decidable.em ((i + 1) % g = 0) with h2 | h2 <;>
      simp [h, h2]

/-- Folding the print loop over any index list distributes over the seed. -/
theorem foldr_print_body_append (bs : BitSet) (g : Nat) (l : List Nat) (acc : List Char) :
    l.foldr (print_body bs g) acc = l.foldr (print_body bs g) [] ++ acc := by
  induction l with
  | nil => rfl
  | cons a l ih =>
    show print_body bs g a (l.foldr (print_body bs g) acc) = _
    rw [ih, print_body_out_append]
    rfl

/-- Dropping the newline characters from one loop iteration leaves exactly
the digit character of that bit. -/
theorem filter_print_body (bs : BitSet) (g i : Nat) (acc : List Char) :
    (print_body bs g i acc).filter (· != '\n') =
      (if BitSet_get bs i = 1 then '1' else '0') :: acc.filter (· != '\n') := by
  unfold print_body
  rcases Decidable.em (BitSet_get bs i = 1) with h | h <;>
    rcases Decidable.em ((i + 1) % g = 0) with h2 | h2 <;>
      simp [h, h2, List.filter_cons]

/-- One loop iteration emits a newline exactly when (i + 1) % g = 0. -/
theorem count_print_body (bs : BitSet) (g i : Nat) (acc : List Char) :
    (print_body bs g i acc).count '\n' =
      (if (i + 1) % g = 0 then 1 else 0) + acc.count '\n' := by
  unfold print_body
  rcases Decidable.em (BitSet_get bs i = 1) with h | h <;>
    rcases Decidable.em ((i + 1) % g = 0) with h2 | h2 <;>
      simp [h, h2, List.count_cons]
  · omega
  · omega

/-- Dropping newline characters from the whole loop output leaves one digit
character per bit index, in order. -/
theorem foldr_print_body_filter (bs : BitSet) (g n : Nat) (acc : List Char) :
    ((List.range n).foldr (print_body bs g) acc).filter (· != '\n') =
      (List.range n).map (fun i => if BitSet_get bs i = 1 then '1' else '0')
        ++ acc.filter (· != '\n') := by
  induction n generalizing acc with
  | zero => simp
  | succ m ih =>
    rw [List.range_succ, List.foldr_append, List.map_append]
    show ((List.range m).foldr (print_body bs g) (print_body bs g m acc)).filter (· != '\n') = _
    rw [ih (print_body bs g m acc), filter_print_body, List.append_assoc]
    rfl

/-- The loop output holds one newline for every full group of g bits. -/
theorem foldr_print_body_count (bs : BitSet) (g n : Nat) (_hg : 1 ≤ g) (acc : List Char) :
    ((List.range n).foldr (print_body bs g) acc).count '\n' = n / g + acc.count '\n' := by
  induction n generalizing acc with
  | zero => simp
  | succ m ih =>
    rw [List.range_succ, List.foldr_append]
    show ((List.range m).foldr (print_body bs g) (print_body bs g m acc)).count '\n' = _
    rw [ih (print_body bs g m acc), count_print_body, Nat.succ_div]
    have hiff : ((m + 1) % g = 0) ↔ g ∣ (m + 1) := Nat.dvd_iff_mod_eq_zero.symm
    rcases Decidable.em (g ∣ (m + 1)) with h | h
    · rw [if_pos (hiff.mpr h), if_pos h]
      omega
    · rw [if_neg (fun hc => h (hiff.mp hc)), if_neg h]
      omega

/-- C10: BitSet_print is well-defined only under the unstated precondition
group_size ≠ 0 — with bit_length > 0 it evaluates (i + 1) % group_size, so
group_size = 0 divides by zero (undefined behavior, modelled as none); for
group_size ≥ 1 it emits one '0'/'1' character per index below bit_length, a
line break after every group_size characters, and a final trailing
newline. -/
theorem print_group_size_spec (bs : BitSet) (g : Nat) :
    (BitSet_print bs g = none ↔ (bs.bit_len ≠ 0 ∧ g = 0)) ∧
    (1 ≤ g → ∀ cs, BitSet_print bs g = some cs →
      cs.filter (· != '\n') =
        (List.range bs.bit_len).map (fun i => if BitSet_get bs i = 1 then '1' else '0') ∧
      cs.count '\n' = bs.bit_len / g + 1 ∧
      cs.getLast? = some '\n') := by
  constructor
  · unfold BitSet_print
    split
    · rename_i h
      simp [h]
    · rename_i h
      simp [h]
  · intro hg cs hcs
    have hcond : ¬(bs.bit_len ≠ 0 ∧ g = 0) := by omega
    unfold BitSet_print at hcs
    rw [if_neg hcond] at hcs
    have hcs' : cs = (List.range bs.bit_len).foldr (print_body bs g) ['\n'] :=
      (Option.some.injEq _ _ ▸ hcs).symm
    subst hcs'
    refine ⟨?_, ?_, ?_⟩
    · rw [foldr_print_body_filter]
      simp
    · rw [foldr_print_body_count bs g _ hg]
      rfl
    · rw [foldr_print_body_append]
      exact List.getLast?_concat _

/-- C10 witness: printing a zeroed 5-bit set with group size 2 yields five
digit characters, a break after every two, and a trailing newline; with
group size 0 the call is undefined. -/
theorem print_group_size_spec_witness :
    BitSet_print (BitSet_init 5) 0 = none ∧
    BitSet_print (BitSet_init 5) 2 = some ['0', '0', '\n', '0', '0', '\n', '0', '\n'] ∧
    ['0', '0', '\n', '0', '0', '\n', '0', '\n'].count '\n' = (BitSet_init 5).bit_len / 2 + 1 ∧
    ['0', '0', '\n', '0', '0', '\n', '0', '\n'].getLast? = some '\n' := by
  have h := (print_group_size_spec (BitSet_init 5) 2).2 (by norm_num)
    ['0', '0', '\n', '0', '0', '\n', '0', '\n'] (by decide)
  exact ⟨(print_group_size_spec (BitSet_init 5) 0).1.mpr (by decide), by decide, h.2.1, h.2.2⟩
